import Mathlib

set_option maxRecDepth 8000
set_option linter.unusedVariables false

/- Shallow embedding of src/utils/keyword_utils.py.

   Modelling conventions:
   - Python `str` values are modelled as `List Char`; the character-level
     operations (`str.lower`, the `\s`, `\w`, `[A-Z]` regex classes,
     `string.punctuation`) are modelled on the ASCII range, where they agree
     with Python.
   - Python `float` arithmetic is modelled by exact rationals.
   - A Python `set` built from a list is modelled as the list of its distinct
     elements in first-occurrence order (`dedupFirst`); every property proved
     about such lists is order-independent.
   - The spaCy pipeline (`nlp`, POS tags, lemmas, noun chunks) and spaCy's
     `STOP_WORDS` are external capabilities; they enter the embedding as
     parameters. -/

/-- The characters of Python's `string.punctuation`. -/
def punctuationChars : List Char :=
  "!\"#$%&\x27()*+,-./:;<=>?@[\\]^_\x60\x7b|\x7d~".data

/-- Membership in `string.punctuation` (the class removed by `preprocess_text`). -/
def isPunct (c : Char) : Bool := decide (c ∈ punctuationChars)

/-- Python regex `\s` / `str.split()` / `str.strip()` whitespace, on the ASCII range. -/
def isSpace (c : Char) : Bool :=
  decide (c ∈ ([' ', '\t', '\n', '\x0b', '\x0c', '\r'] : List Char))

/-- Uppercase ASCII letter: the regex class `[A-Z]`. -/
def isUpperAZ (c : Char) : Bool := decide (65 ≤ c.toNat ∧ c.toNat ≤ 90)

/-- Python `str.lower()` on one character (ASCII range). -/
def pyLowerChar (c : Char) : Char :=
  if 65 ≤ c.toNat ∧ c.toNat ≤ 90 then Char.ofNat (c.toNat + 32) else c

/-- Python `str.lower()` (ASCII range). -/
def pyLower (s : List Char) : List Char := s.map pyLowerChar

/-- Line 46, `re.sub(f'[...punctuation...]', ' ', text)`: each punctuation
character becomes one space. -/
def replacePunct (s : List Char) : List Char :=
  s.map (fun c => if isPunct c then ' ' else c)

/-- Line 49, `re.sub(r'\s+', ' ', text)`: each maximal whitespace run becomes a
single space.  `prevWS` records whether the previous character was whitespace,
i.e. whether the current run has already emitted its space. -/
def squeezeAux : Bool → List Char → List Char
  | _, [] => []
  | prevWS, c :: cs =>
    if isSpace c then
      if prevWS then squeezeAux true cs else ' ' :: squeezeAux true cs
    else c :: squeezeAux false cs

/-- Python `str.strip()`: drop leading and trailing whitespace. -/
def pyStrip (s : List Char) : List Char :=
  ((s.dropWhile isSpace).reverse.dropWhile isSpace).reverse

/-- `preprocess_text` (keyword_utils.py lines 32-51): lowercase, punctuation to
spaces, whitespace runs collapsed to single spaces, ends trimmed. -/
def preprocess_text (text : List Char) : List Char :=
  pyStrip (squeezeAux false (replacePunct (pyLower text)))

/-- Maximal runs of characters satisfying `p`; `cur` holds the current run in
reverse.  `splitBy (fun c => !(isSpace c))` is Python `str.split()`, and
`splitBy isWordChar` gives the regex word-character runs used to interpret
word boundaries. -/
def splitByAux (p : Char → Bool) : List Char → List Char → List (List Char)
  | cur, [] => if cur.isEmpty then [] else [cur.reverse]
  | cur, c :: cs =>
    if p c then splitByAux p (c :: cur) cs
    else if cur.isEmpty then splitByAux p [] cs
    else cur.reverse :: splitByAux p [] cs

def splitBy (p : Char → Bool) (s : List Char) : List (List Char) :=
  splitByAux p [] s

/-- Line 149, Python `str.split()` with no argument: whitespace-delimited words. -/
def pySplit (s : List Char) : List (List Char) := splitBy (fun c => !(isSpace c)) s

/-- Regex word character `\w` (ASCII). -/
def isWordChar (c : Char) : Bool := c.isAlpha || c.isDigit || c == '_'

/-- Line 157, `re.findall(r'\b[A-Z]{2,5}\b', text)`.  A match of this pattern is
exactly a maximal word-character run consisting of 2-5 uppercase letters: the
`\b` anchors force the match to cover a whole run, and `[A-Z]{2,5}` forces its
content and length. -/
def regexAcronyms (s : List Char) : List (List Char) :=
  (splitBy isWordChar s).filter
    (fun r => decide (2 ≤ r.length) && decide (r.length ≤ 5) && r.all isUpperAZ)

/-- Python set/dict deduplication keeping first occurrences; `seen` is the set
of elements already kept (the `seen` set of lines 109-114). -/
def dedupFirstAux {α : Type*} [DecidableEq α] (seen : List α) : List α → List α
  | [] => []
  | x :: xs => if x ∈ seen then dedupFirstAux seen xs else x :: dedupFirstAux (x :: seen) xs

/-- The distinct elements of `l` in first-occurrence order: the model of a
Python `set` built from `l`. -/
def dedupFirst {α : Type*} [DecidableEq α] (l : List α) : List α := dedupFirstAux [] l

/-- The reference set `tech_terms` local to `extract_technical_terms`
(lines 129-146). -/
def tech_terms : List (List Char) :=
  (["python", "javascript", "typescript", "java", "c++", "c#", "ruby", "php", "swift",
    "kotlin", "go", "rust", "scala", "perl", "r", "matlab", "sql", "nosql", "html", "css",
    "react", "angular", "vue", "node", "express", "django", "flask", "spring", "rails",
    "laravel", "asp.net", "jquery", "bootstrap", "tailwind", "sass", "less",
    "aws", "azure", "gcp", "docker", "kubernetes", "jenkins", "travis", "circleci",
    "git", "github", "gitlab", "bitbucket", "jira", "confluence", "trello", "slack",
    "mongodb", "postgresql", "mysql", "oracle", "sqlite", "redis", "elasticsearch",
    "kafka", "rabbitmq", "graphql", "rest", "soap", "api", "json", "xml", "yaml",
    "agile", "scrum", "kanban", "waterfall", "tdd", "bdd", "ci/cd", "devops", "sre",
    "ai", "ml", "machine learning", "deep learning", "nlp", "computer vision", "data science",
    "tensorflow", "pytorch", "keras", "scikit-learn", "pandas", "numpy", "matplotlib",
    "hadoop", "spark", "tableau", "power bi", "excel", "word", "powerpoint", "outlook",
    "linux", "unix", "windows", "macos", "ios", "android", "react native", "flutter",
    "oauth", "jwt", "saml", "ldap", "ssl", "tls", "https", "tcp/ip", "dns", "http",
    "ui", "ux", "frontend", "backend", "full-stack", "web", "mobile", "desktop", "cloud",
    "microservices", "serverless", "soa", "etl", "crud", "orm", "mvc", "mvvm", "spa"]
    : List String).map String.data

/-- `extract_technical_terms` (lines 118-160): whitespace-split words whose
lowercase form is in `tech_terms`, plus the lowercase forms of the `[A-Z]{2,5}`
acronym matches, deduplicated (`list(set(...))`). -/
def extract_technical_terms (text : List Char) : List (List Char) :=
  let words := pySplit text
  let found_terms := (words.filter (fun w => decide (pyLower w ∈ tech_terms))).map pyLower
  let acronyms := regexAcronyms text
  dedupFirst (found_terms ++ acronyms.map pyLower)

/-- A spaCy token as consumed by `extract_keywords`: surface text, lemma,
coarse POS tag, alphabetic flag.  The linguistic model producing these is an
external capability (section 6 of the spec). -/
structure SpacyToken where
  text : List Char
  lemma_ : List Char
  pos_ : String
  is_alpha : Bool

/-- `CUSTOM_STOP_WORDS` (lines 22-27). -/
def CUSTOM_STOP_WORDS : List (List Char) :=
  (["resume", "cv", "curriculum", "vitae", "job", "description", "position",
    "responsibilities", "requirements", "qualifications", "experience", "education",
    "skills", "company", "work", "email", "phone", "address", "summary", "profile",
    "contact", "information", "apply", "year", "years", "month", "months", "day", "days"]
    : List String).map String.data

/-- `collections.Counter` of a list: the distinct keys in first-occurrence
(insertion) order, each paired with its multiplicity. -/
def counterOf {α : Type*} [DecidableEq α] (l : List α) : List (α × Nat) :=
  (dedupFirst l).map (fun k => (k, l.count k))

/-- Python dict assignment `m[k] = v` (line 99): overwrite in place when the
key exists, else append. -/
def setKey {α : Type*} [DecidableEq α] (m : List (α × Nat)) (k : α) (v : Nat) :
    List (α × Nat) :=
  if m.any (fun p => decide (p.1 = k)) then
    m.map (fun p => if p.1 = k then (k, v) else p)
  else m ++ [(k, v)]

/-- Stable insertion into a count-descending list (helper for `most_common`). -/
def insertCountDesc {α : Type*} (x : α × Nat) : List (α × Nat) → List (α × Nat)
  | [] => [x]
  | y :: ys => if y.2 ≤ x.2 then x :: y :: ys else y :: insertCountDesc x ys

/-- Stable sort by count, descending (Python `sorted(..., reverse=True)` as used
by `Counter.most_common`). -/
def sortCountDesc {α : Type*} : List (α × Nat) → List (α × Nat)
  | [] => []
  | x :: xs => insertCountDesc x (sortCountDesc xs)

/-- `Counter.most_common(n)`: entries stably sorted by count descending,
truncated to `n`. -/
def most_common {α : Type*} (m : List (α × Nat)) (n : Nat) : List (α × Nat) :=
  (sortCountDesc m).take n

/-- `extract_keywords` (lines 53-116).  The spaCy pipeline and its noun-chunk
analysis, and spaCy's `STOP_WORDS`, are external capabilities passed as the
parameters `tokenize`, `noun_chunks` and `spacy_stop_words`. -/
def extract_keywords (tokenize : List Char → List SpacyToken)
    (noun_chunks : List Char → List (List SpacyToken))
    (spacy_stop_words : List (List Char))
    (text : List Char) (min_word_length : Nat := 3) (top_n : Nat := 100) :
    List (List Char) :=
  let preprocessed_text := preprocess_text text
  let doc := tokenize preprocessed_text
  let all_stop_words := spacy_stop_words ++ CUSTOM_STOP_WORDS
  let potential_keywords :=
    (doc.filter (fun t =>
        decide (t.pos_ ∈ (["NOUN", "PROPN", "ADJ", "VERB"] : List String)) &&
        !(decide (pyLower t.text ∈ all_stop_words)) &&
        decide (min_word_length ≤ t.text.length) &&
        t.is_alpha)).map (fun t => pyLower t.lemma_)
  let noun_phrases :=
    (((noun_chunks preprocessed_text).map (fun chunk =>
        List.intercalate [' ']
          ((chunk.filter (fun t =>
              !(decide (pyLower t.lemma_ ∈ all_stop_words)) &&
              decide (min_word_length ≤ t.lemma_.length) &&
              t.is_alpha)).map (fun t => pyLower t.lemma_)))).filter
      (fun ph => !(ph.isEmpty) && ph.contains ' '))
  let keyword_freq := counterOf potential_keywords
  let phrase_freq := counterOf noun_phrases
  let merged_freq := phrase_freq.foldl (fun m pc => setKey m pc.1 (pc.2 * 2)) keyword_freq
  let keywords := (most_common merged_freq top_n).map Prod.fst
  let tech_keywords := extract_technical_terms preprocessed_text
  (dedupFirst (keywords ++ tech_keywords)).take top_n

/-- `get_match_score` (lines 162-190).  Keywords are opaque hashable values in
the source; the score is the exact rational value of the float expression
`(len(matched_keywords) / len(job_set)) * 100`. -/
def get_match_score {α : Type*} [DecidableEq α] (resume_keywords job_keywords : List α) :
    ℚ × List α × List α :=
  let resume_set := dedupFirst resume_keywords
  let job_set := dedupFirst job_keywords
  let matched_keywords := resume_set.filter (fun k => decide (k ∈ job_set))
  let missing_keywords := job_set.filter (fun k => decide (k ∉ resume_set))
  if job_set.isEmpty then (100, matched_keywords, missing_keywords)
  else (((matched_keywords.length : ℚ) / (job_set.length : ℚ)) * 100,
        matched_keywords, missing_keywords)

/-- Round half to even (Python's `round` tie-breaking rule) on rationals. -/
def roundHalfEven (q : ℚ) : ℤ :=
  let n := ⌊q⌋
  if q - n < 1 / 2 then n
  else if 1 / 2 < q - n then n + 1
  else if n % 2 = 0 then n else n + 1

/-- Python `round(x, 1)`, modelled on exact rationals. -/
def round1 (q : ℚ) : ℚ := (roundHalfEven (q * 10) : ℚ) / 10

/-- The `match_score` field packaged by `analyze_resume_job_match` (line 270):
`round(match_score, 1)` applied to the score coming from `get_match_score`.
Keyword extraction is abstracted away: this takes the two extracted keyword
lists, exactly as `get_match_score` does. -/
def analyze_match_score {α : Type*} [DecidableEq α]
    (resume_keywords job_keywords : List α) : ℚ :=
  round1 (get_match_score resume_keywords job_keywords).1

/-- The categorization set `tech_terms` local to `generate_suggestions`
(lines 212-213); distinct from the larger reference set of
`extract_technical_terms`. -/
def suggestion_tech_terms : List String :=
  ["python", "javascript", "java", "aws", "azure", "docker", "kubernetes",
   "react", "angular", "vue", "node", "sql", "nosql", "git", "ci/cd", "api"]

/-- The `soft_skills` set of `generate_suggestions` (lines 215-216). -/
def soft_skills : List String :=
  ["communication", "teamwork", "leadership", "problem-solving",
   "critical thinking", "time management", "adaptability", "creativity"]

/-- Python `f"'{k}'"`. -/
def quoteKw (k : String) : String := "\x27" ++ k ++ "\x27"

/-- The technical-bucket sentence of `generate_suggestions` (lines 228-232):
first 3 items, and a count-based suffix when there are more than 3. -/
def techSentence (tech_missing : List String) : String :=
  let s := String.intercalate ", " ((tech_missing.take 3).map quoteKw)
  let s := if 3 < tech_missing.length then
      s ++ (", and " ++ toString (tech_missing.length - 3) ++ " more technical skills")
    else s
  "Consider adding your experience with " ++ s ++
    " to better align with the technical requirements."

/-- The soft-skill sentence (lines 234-238): first 2 items, and a fixed
countless suffix when there are more than 2. -/
def softSentence (soft_skills_missing : List String) : String :=
  let s := String.intercalate ", " ((soft_skills_missing.take 2).map quoteKw)
  let s := if 2 < soft_skills_missing.length then s ++ ", and other soft skills" else s
  "Highlight your " ++ s ++ " skills, which are valued in this role."

/-- The other-bucket sentence (lines 240-244): first 3 items, and a fixed
countless suffix when there are more than 3. -/
def otherSentence (other_missing : List String) : String :=
  let s := String.intercalate ", " ((other_missing.take 3).map quoteKw)
  let s := if 3 < other_missing.length then s ++ ", and other relevant keywords" else s
  "Include experience related to " ++ s ++ " if you have it."

/-- `generate_suggestions` (lines 192-246). -/
def generate_suggestions (matched_keywords missing_keywords : List String) : String :=
  if missing_keywords.isEmpty then
    "Your resume already contains all the important keywords from the job description. Great job!"
  else
    let tech_missing := missing_keywords.filter
      (fun kw => decide (kw ∈ suggestion_tech_terms))
    let soft_skills_missing := missing_keywords.filter
      (fun kw => !(decide (kw ∈ suggestion_tech_terms)) && decide (kw ∈ soft_skills))
    let other_missing := missing_keywords.filter
      (fun kw => !(decide (kw ∈ suggestion_tech_terms)) && !(decide (kw ∈ soft_skills)))
    let suggestions :=
      (if !(tech_missing.isEmpty) then [techSentence tech_missing] else []) ++
      (if !(soft_skills_missing.isEmpty) then [softSentence soft_skills_missing] else []) ++
      (if !(other_missing.isEmpty) then [otherSentence other_missing] else [])
    String.intercalate " " suggestions

/- Definitions written from the spec's words (for the refinement statement of
claim C4): the suggestion text described as a partition of `missing` into
categories 0 (technical), 1 (soft skill), 2 (other), each non-empty bucket
contributing one capped sentence, concatenated in category order. -/

/-- Spec-side category of a missing keyword: 0 technical, 1 soft skill, 2 other. -/
def suggestionCategory (kw : String) : Nat :=
  if kw ∈ suggestion_tech_terms then 0 else if kw ∈ soft_skills then 1 else 2

/-- Spec-side bucket `i` of the category partition of `missing`, in iteration
order of `missing`. -/
def categoryBucket (missing : List String) (i : Nat) : List String :=
  missing.filter (fun kw => decide (suggestionCategory kw = i))

/-- Spec-side cap on the number of items named by bucket `i`. -/
def categoryCap (i : Nat) : Nat := if i = 1 then 2 else 3

/-- Spec-side suffix appended when bucket `i`, of size `n`, exceeds its cap:
count-based for the technical bucket, fixed for the other two. -/
def categorySuffix (i : Nat) (n : Nat) : String :=
  if i = 0 then ", and " ++ toString (n - 3) ++ " more technical skills"
  else if i = 1 then ", and other soft skills"
  else ", and other relevant keywords"

/-- Spec-side sentence template of bucket `i`. -/
def categoryTemplate (i : Nat) (s : String) : String :=
  if i = 0 then
    "Consider adding your experience with " ++ s ++
      " to better align with the technical requirements."
  else if i = 1 then "Highlight your " ++ s ++ " skills, which are valued in this role."
  else "Include experience related to " ++ s ++ " if you have it."

/-- Spec-side sentence of bucket `i` holding the keywords `l`. -/
def categorySentence (i : Nat) (l : List String) : String :=
  let s := String.intercalate ", " ((l.take (categoryCap i)).map quoteKw)
  categoryTemplate i
    (if categoryCap i < l.length then s ++ categorySuffix i l.length else s)

/-- Spec-side suggestion text: the non-empty buckets' sentences, space
separated, in the fixed order technical, soft skill, other. -/
def specSuggestions (missing : List String) : String :=
  String.intercalate " "
    ((([0, 1, 2] : List Nat).filter
        (fun i => !((categoryBucket missing i).isEmpty))).map
      (fun i => categorySentence i (categoryBucket missing i)))


/- ------------------------------------------------------------------ -/
/- Helper lemmas on the set model                                      -/
/- ------------------------------------------------------------------ -/

theorem mem_dedupFirstAux {α : Type*} [DecidableEq α] {x : α} (l seen : List α) :
    x ∈ dedupFirstAux seen l ↔ x ∈ l ∧ x ∉ seen := by
  induction l generalizing seen with
  | nil => simp [dedupFirstAux]
  | cons y ys ih =>
    by_cases h : y ∈ seen
    · rw [dedupFirstAux, if_pos h, ih]
      constructor
      · rintro ⟨hx, hs⟩
        exact ⟨List.mem_cons_of_mem _ hx, hs⟩
      · rintro ⟨hx, hs⟩
        rcases List.mem_cons.mp hx with rfl | hx'
        · exact absurd h hs
        · exact ⟨hx', hs⟩
    · rw [dedupFirstAux, if_neg h]
      constructor
      · intro hx
        rcases List.mem_cons.mp hx with rfl | hx'
        · exact ⟨List.mem_cons_self x ys, h⟩
        · obtain ⟨hys, hns⟩ := (ih (y :: seen)).mp hx'
          exact ⟨List.mem_cons_of_mem _ hys, fun hs => hns (List.mem_cons_of_mem _ hs)⟩
      · rintro ⟨hx, hs⟩
        rcases List.mem_cons.mp hx with rfl | hys
        · exact List.mem_cons_self x _
        · by_cases hxy : x = y
          · subst hxy
            exact List.mem_cons_self x _
          · refine List.mem_cons_of_mem _ ((ih (y :: seen)).mpr ⟨hys, ?_⟩)
            intro hmem
            rcases List.mem_cons.mp hmem with rfl | hseen
            · exact hxy rfl
            · exact hs hseen

theorem mem_dedupFirst {α : Type*} [DecidableEq α] {x : α} (l : List α) :
    x ∈ dedupFirst l ↔ x ∈ l := by
  simp [dedupFirst, mem_dedupFirstAux]

theorem nodup_dedupFirstAux {α : Type*} [DecidableEq α] (l seen : List α) :
    (dedupFirstAux seen l).Nodup := by
  induction l generalizing seen with
  | nil => simp [dedupFirstAux]
  | cons y ys ih =>
    by_cases h : y ∈ seen
    · rw [dedupFirstAux, if_pos h]; exact ih seen
    · rw [dedupFirstAux, if_neg h]
      refine List.nodup_cons.mpr ⟨?_, ih _⟩
      intro hy
      exact ((mem_dedupFirstAux ys (y :: seen)).mp hy).2 (List.mem_cons_self y seen)

theorem nodup_dedupFirst {α : Type*} [DecidableEq α] (l : List α) :
    (dedupFirst l).Nodup := nodup_dedupFirstAux l []

theorem toFinset_dedupFirst {α : Type*} [DecidableEq α] (l : List α) :
    (dedupFirst l).toFinset = l.toFinset := by
  ext a
  simp [mem_dedupFirst]

theorem length_dedupFirst {α : Type*} [DecidableEq α] (l : List α) :
    (dedupFirst l).length = l.toFinset.card := by
  rw [← toFinset_dedupFirst, List.toFinset_card_of_nodup (nodup_dedupFirst l)]

/- ------------------------------------------------------------------ -/
/- Helper lemmas on get_match_score                                    -/
/- ------------------------------------------------------------------ -/

theorem gms_snd {α : Type*} [DecidableEq α] (r j : List α) :
    (get_match_score r j).2 =
      ((dedupFirst r).filter (fun k => decide (k ∈ dedupFirst j)),
       (dedupFirst j).filter (fun k => decide (k ∉ dedupFirst r))) := by
  by_cases h : (dedupFirst j).isEmpty <;> simp [get_match_score, h]

theorem gms_matched {α : Type*} [DecidableEq α] (r j : List α) :
    (get_match_score r j).2.1 =
      (dedupFirst r).filter (fun k => decide (k ∈ dedupFirst j)) := by
  rw [gms_snd]

theorem gms_missing {α : Type*} [DecidableEq α] (r j : List α) :
    (get_match_score r j).2.2 =
      (dedupFirst j).filter (fun k => decide (k ∉ dedupFirst r)) := by
  rw [gms_snd]

theorem matched_toFinset {α : Type*} [DecidableEq α] (r j : List α) :
    ((get_match_score r j).2.1).toFinset = r.toFinset ∩ j.toFinset := by
  ext a
  simp [gms_matched, List.mem_filter, mem_dedupFirst]

theorem missing_toFinset {α : Type*} [DecidableEq α] (r j : List α) :
    ((get_match_score r j).2.2).toFinset = j.toFinset \ r.toFinset := by
  ext a
  simp [gms_missing, List.mem_filter, mem_dedupFirst]

theorem matched_nodup {α : Type*} [DecidableEq α] (r j : List α) :
    ((get_match_score r j).2.1).Nodup := by
  rw [gms_matched]
  exact (nodup_dedupFirst r).filter _

theorem missing_nodup {α : Type*} [DecidableEq α] (r j : List α) :
    ((get_match_score r j).2.2).Nodup := by
  rw [gms_missing]
  exact (nodup_dedupFirst j).filter _

theorem matched_length {α : Type*} [DecidableEq α] (r j : List α) :
    ((get_match_score r j).2.1).length = (r.toFinset ∩ j.toFinset).card := by
  rw [← matched_toFinset r j, List.toFinset_card_of_nodup (matched_nodup r j)]

theorem gms_score {α : Type*} [DecidableEq α] (r j : List α) (h : dedupFirst j ≠ []) :
    (get_match_score r j).1 =
      ((((dedupFirst r).filter (fun k => decide (k ∈ dedupFirst j))).length : ℚ) /
        ((dedupFirst j).length : ℚ)) * 100 := by
  have h' : (dedupFirst j).isEmpty = false := by
    simpa using h
  simp [get_match_score, h']

/- ------------------------------------------------------------------ -/
/- Claim theorems: match scorer                                        -/
/- ------------------------------------------------------------------ -/

/-- C1, counterexample to the claim as stated: on resume keywords `["a"]` and
job keywords `["a", "b", "c"]`, `get_match_score` returns the exact percentage
`100/3`, not the one-decimal rounding `100 × |matched| / |jobSet|` = `33.3`
promised by the claim: the rounding step lives elsewhere. -/
theorem C1_rounding_counterexample :
    (get_match_score ["a"] ["a", "b", "c"]).1 ≠
      round1 (100 *
        (((["a"] : List String).toFinset ∩ (["a", "b", "c"] : List String).toFinset).card : ℚ) /
        ((["a", "b", "c"] : List String).toFinset.card : ℚ)) := by
  have hm : ((["a"] : List String).toFinset ∩ (["a", "b", "c"] : List String).toFinset).card = 1 := by
    decide
  have hj : (["a", "b", "c"] : List String).toFinset.card = 3 := by decide
  have hs : (get_match_score ["a"] ["a", "b", "c"]).1 = 100 / 3 := by
    simp +decide [get_match_score, dedupFirst, dedupFirstAux]
    norm_num
  rw [hm, hj, hs]
  norm_num [round1, roundHalfEven]

/-- C1 (amended): for a non-empty job keyword set, `get_match_score` returns
the exact, un-rounded percentage `|resumeSet ∩ jobSet| / |jobSet| × 100`; the
rounding to one decimal place is applied afterwards by
`analyze_resume_job_match` when it packages the score. -/
theorem C1_score_exact {α : Type*} [DecidableEq α] (r j : List α)
    (h : j.toFinset ≠ ∅) :
    (get_match_score r j).1 =
      ((r.toFinset ∩ j.toFinset).card : ℚ) / (j.toFinset.card : ℚ) * 100 ∧
    analyze_match_score r j =
      round1 (((r.toFinset ∩ j.toFinset).card : ℚ) / (j.toFinset.card : ℚ) * 100) := by
  have hj : dedupFirst j ≠ [] := by
    intro hnil
    apply h
    rw [← toFinset_dedupFirst, hnil]
    rfl
  have h1 : (get_match_score r j).1 =
      ((r.toFinset ∩ j.toFinset).card : ℚ) / (j.toFinset.card : ℚ) * 100 := by
    rw [gms_score r j hj, ← gms_matched, matched_length, length_dedupFirst]
  refine ⟨h1, ?_⟩
  rw [analyze_match_score, h1]

/-- Witness for C1_score_exact at resume `["a"]`, job `["a", "b"]`. -/
theorem C1_score_exact_witness :
    (get_match_score ["a"] ["a", "b"]).1 =
      (((["a"] : List String).toFinset ∩ (["a", "b"] : List String).toFinset).card : ℚ) /
        ((["a", "b"] : List String).toFinset.card : ℚ) * 100 :=
  (C1_score_exact ["a"] ["a", "b"] (by decide)).1

/-- C2: the matched and missing lists returned by `get_match_score` are, as
sets, `resumeSet ∩ jobSet` and `jobSet − resumeSet`; their union is the job
keyword set and their intersection is empty. -/
theorem C2_matched_missing_sets {α : Type*} [DecidableEq α] (r j : List α) :
    ((get_match_score r j).2.1).toFinset = r.toFinset ∩ j.toFinset ∧
    ((get_match_score r j).2.2).toFinset = j.toFinset \ r.toFinset ∧
    ((get_match_score r j).2.1).toFinset ∪ ((get_match_score r j).2.2).toFinset = j.toFinset ∧
    ((get_match_score r j).2.1).toFinset ∩ ((get_match_score r j).2.2).toFinset = ∅ := by
  refine ⟨matched_toFinset r j, missing_toFinset r j, ?_, ?_⟩
  · rw [matched_toFinset, missing_toFinset]
    ext a
    simp only [Finset.mem_union, Finset.mem_inter, Finset.mem_sdiff]
    tauto
  · rw [matched_toFinset, missing_toFinset]
    ext a
    simp only [Finset.mem_inter, Finset.mem_sdiff, Finset.not_mem_empty, iff_false]
    tauto

/-- C3: whenever the job keyword list yields an empty set, `get_match_score`
returns the percentage 100, whatever the resume keywords are. -/
theorem C3_empty_job_score {α : Type*} [DecidableEq α] (r j : List α)
    (h : j.toFinset = ∅) :
    (get_match_score r j).1 = 100 := by
  have hj : j = [] := (List.toFinset_eq_empty_iff j).mp h
  subst hj
  simp [get_match_score, dedupFirst, dedupFirstAux]

/-- Witness for C3_empty_job_score at resume `["python"]`, job `[]`. -/
theorem C3_empty_job_score_witness :
    (get_match_score ["python"] ([] : List String)).1 = 100 :=
  C3_empty_job_score ["python"] ([] : List String) (by decide)

/-- C9: the matched and missing lists returned by `get_match_score` contain no
duplicates, and when the job keyword set is empty both lists are empty,
whatever the resume keywords are. -/
theorem C9_nodup_and_empty {α : Type*} [DecidableEq α] (r j : List α) :
    ((get_match_score r j).2.1).Nodup ∧ ((get_match_score r j).2.2).Nodup ∧
    (j.toFinset = ∅ →
      (get_match_score r j).2.1 = [] ∧ (get_match_score r j).2.2 = []) := by
  refine ⟨matched_nodup r j, missing_nodup r j, fun h => ?_⟩
  have hj : j = [] := (List.toFinset_eq_empty_iff j).mp h
  subst hj
  constructor
  · rw [gms_matched]
    simp [dedupFirst, dedupFirstAux]
  · rw [gms_missing]
    simp [dedupFirst, dedupFirstAux]

/-- Witness for C9_nodup_and_empty at resume `["a", "a"]`, job `[]`. -/
theorem C9_nodup_and_empty_witness :
    ((get_match_score ["a", "a"] ([] : List String)).2.1).Nodup ∧
    (get_match_score ["a", "a"] ([] : List String)).2.1 = [] ∧
    (get_match_score ["a", "a"] ([] : List String)).2.2 = [] := by
  obtain ⟨h1, _, h3⟩ := C9_nodup_and_empty ["a", "a"] ([] : List String)
  exact ⟨h1, (h3 (by decide)).1, (h3 (by decide)).2⟩

/- ------------------------------------------------------------------ -/
/- Claim theorems: suggestion generator                                -/
/- ------------------------------------------------------------------ -/

/-- C8: when the missing keyword list is empty, `generate_suggestions` returns
exactly the fixed congratulatory sentence, whatever the matched keywords. -/
theorem C8_congratulatory (matched : List String) :
    generate_suggestions matched [] =
      "Your resume already contains all the important keywords from the job description. Great job!" :=
  rfl

/- ------------------------------------------------------------------ -/
/- Helper lemmas for the suggestion refinement                         -/
/- ------------------------------------------------------------------ -/

theorem categorySentence_zero (l : List String) : categorySentence 0 l = techSentence l := rfl

theorem categorySentence_one (l : List String) : categorySentence 1 l = softSentence l := rfl

theorem categorySentence_two (l : List String) : categorySentence 2 l = otherSentence l := rfl

theorem bucket_zero (missing : List String) :
    missing.filter (fun kw => decide (kw ∈ suggestion_tech_terms)) =
      categoryBucket missing 0 := by
  refine List.filter_congr ?_
  intro kw _
  by_cases ht : kw ∈ suggestion_tech_terms
  · simp [suggestionCategory, ht]
  · by_cases hs : kw ∈ soft_skills <;> simp [suggestionCategory, ht, hs]

theorem bucket_one (missing : List String) :
    missing.filter
        (fun kw => !(decide (kw ∈ suggestion_tech_terms)) && decide (kw ∈ soft_skills)) =
      categoryBucket missing 1 := by
  refine List.filter_congr ?_
  intro kw _
  by_cases ht : kw ∈ suggestion_tech_terms
  · simp [suggestionCategory, ht]
  · by_cases hs : kw ∈ soft_skills <;> simp [suggestionCategory, ht, hs]

theorem bucket_two (missing : List String) :
    missing.filter
        (fun kw => !(decide (kw ∈ suggestion_tech_terms)) && !(decide (kw ∈ soft_skills))) =
      categoryBucket missing 2 := by
  refine List.filter_congr ?_
  intro kw _
  by_cases ht : kw ∈ suggestion_tech_terms
  · simp [suggestionCategory, ht]
  · by_cases hs : kw ∈ soft_skills <;> simp [suggestionCategory, ht, hs]

/- ------------------------------------------------------------------ -/
/- Claim theorems: suggestion structure (C4)                           -/
/- ------------------------------------------------------------------ -/

/-- C4, counterexample to the claim as stated: with the four missing keywords
`alpha, beta, gamma, delta` the "other" bucket exceeds its cap of 3, yet the
emitted sentence carries the fixed suffix "and other relevant keywords" and
contains no digit at all, so no count-based suffix of the form "and N more"
is appended. -/
theorem C4_count_suffix_counterexample :
    generate_suggestions [] ["alpha", "beta", "gamma", "delta"] =
      "Include experience related to \x27alpha\x27, \x27beta\x27, \x27gamma\x27, and other relevant keywords if you have it." ∧
    ((generate_suggestions [] ["alpha", "beta", "gamma", "delta"]).data.all
      (fun c => !(c.isDigit))) = true := by
  constructor <;> decide

/-- C4 (amended): for a non-empty missing list, `generate_suggestions`
partitions it into technical, soft-skill and other buckets (in missing-list
iteration order), emits one sentence per non-empty bucket naming up to the
first 3 (technical, other) or 2 (soft-skill) items, appends a suffix when the
bucket exceeds its cap — count-based ("and N more technical skills") for the
technical bucket, fixed and countless for the soft-skill and other buckets —
and joins the sentences space-separated in the fixed order technical,
soft-skill, other.  Stated as a refinement: the code-side function agrees with
`specSuggestions`, written from those words. -/
theorem C4_suggestions_refine (matched missing : List String) (h : missing ≠ []) :
    generate_suggestions matched missing = specSuggestions missing := by
  have hne : missing.isEmpty = false := by simpa using h
  simp only [generate_suggestions, specSuggestions, hne, Bool.false_eq_true, if_false,
    bucket_zero, bucket_one, bucket_two]
  by_cases e0 : (categoryBucket missing 0).isEmpty = true <;>
  by_cases e1 : (categoryBucket missing 1).isEmpty = true <;>
  by_cases e2 : (categoryBucket missing 2).isEmpty = true <;>
    simp [e0, e1, e2, List.filter, categorySentence_zero, categorySentence_one,
      categorySentence_two]

/-- Witness for C4_suggestions_refine at matched `[]` and missing
`["communication", "python", "alpha"]`. -/
theorem C4_suggestions_refine_witness :
    generate_suggestions [] ["communication", "python", "alpha"] =
      specSuggestions ["communication", "python", "alpha"] :=
  C4_suggestions_refine [] ["communication", "python", "alpha"] (by decide)

/- ------------------------------------------------------------------ -/
/- Helper lemmas on characters and preprocess_text                     -/
/- ------------------------------------------------------------------ -/

theorem lower_shift_facts (n : Nat) (h1 : 65 ≤ n) (h2 : n ≤ 90) :
    isUpperAZ (Char.ofNat (n + 32)) = false ∧ isSpace (Char.ofNat (n + 32)) = false ∧
    isPunct (Char.ofNat (n + 32)) = false ∧
    ¬(65 ≤ (Char.ofNat (n + 32)).toNat ∧ (Char.ofNat (n + 32)).toNat ≤ 90) := by
  interval_cases n <;> decide

theorem pyLowerChar_not_upper (c : Char) : isUpperAZ (pyLowerChar c) = false := by
  rw [pyLowerChar]
  by_cases h : 65 ≤ c.toNat ∧ c.toNat ≤ 90
  · rw [if_pos h]
    exact (lower_shift_facts c.toNat h.1 h.2).1
  · rw [if_neg h]
    simpa [isUpperAZ] using h

theorem pyLowerChar_fix (c : Char) (h : isUpperAZ c = false) : pyLowerChar c = c := by
  rw [pyLowerChar, if_neg]
  simpa [isUpperAZ] using h

theorem pyLowerChar_idem (c : Char) : pyLowerChar (pyLowerChar c) = pyLowerChar c :=
  pyLowerChar_fix _ (pyLowerChar_not_upper c)

theorem pyLowerChar_keeps (c : Char) (hs : isSpace c = false) (hp : isPunct c = false) :
    isSpace (pyLowerChar c) = false ∧ isPunct (pyLowerChar c) = false := by
  rw [pyLowerChar]
  by_cases h : 65 ≤ c.toNat ∧ c.toNat ≤ 90
  · rw [if_pos h]
    exact ⟨(lower_shift_facts c.toNat h.1 h.2).2.1, (lower_shift_facts c.toNat h.1 h.2).2.2.1⟩
  · rw [if_neg h]
    exact ⟨hs, hp⟩

theorem mem_replacePunct {c : Char} {l : List Char} (h : c ∈ replacePunct l) :
    c = ' ' ∨ (c ∈ l ∧ isPunct c = false) := by
  obtain ⟨d, hd, hdc⟩ := List.mem_map.mp h
  by_cases hp : isPunct d = true
  · rw [if_pos hp] at hdc
    exact Or.inl hdc.symm
  · rw [if_neg hp] at hdc
    subst hdc
    exact Or.inr ⟨hd, by simpa using hp⟩

theorem mem_squeezeAux {c : Char} (b : Bool) (l : List Char) (h : c ∈ squeezeAux b l) :
    c = ' ' ∨ (c ∈ l ∧ isSpace c = false) := by
  induction l generalizing b with
  | nil => simp [squeezeAux] at h
  | cons d ds ih =>
    rw [squeezeAux] at h
    split_ifs at h with hd hb
    · rcases ih true h with h1 | ⟨h2, h3⟩
      · exact Or.inl h1
      · exact Or.inr ⟨List.mem_cons_of_mem _ h2, h3⟩
    · rcases List.mem_cons.mp h with rfl | h'
      · exact Or.inl rfl
      · rcases ih true h' with h1 | ⟨h2, h3⟩
        · exact Or.inl h1
        · exact Or.inr ⟨List.mem_cons_of_mem _ h2, h3⟩
    · rcases List.mem_cons.mp h with rfl | h'
      · exact Or.inr ⟨List.mem_cons_self _ _, by simpa using hd⟩
      · rcases ih false h' with h1 | ⟨h2, h3⟩
        · exact Or.inl h1
        · exact Or.inr ⟨List.mem_cons_of_mem _ h2, h3⟩

theorem squeeze_space_is_blank {c : Char} (b : Bool) (l : List Char)
    (h : c ∈ squeezeAux b l) (hs : isSpace c = true) : c = ' ' := by
  rcases mem_squeezeAux b l h with h1 | ⟨_, h3⟩
  · exact h1
  · rw [h3] at hs
    simp at hs

theorem squeezeAux_true_head (l : List Char) (c : Char)
    (h : (squeezeAux true l).head? = some c) : isSpace c = false := by
  induction l with
  | nil => simp [squeezeAux] at h
  | cons d ds ih =>
    by_cases hd : isSpace d = true
    · rw [squeezeAux, if_pos hd, if_pos rfl] at h
      exact ih h
    · rw [squeezeAux, if_neg hd, List.head?_cons] at h
      injection h with h'
      subst h'
      simpa using hd

theorem squeezeAux_chain (b : Bool) (l : List Char) :
    List.Chain' (fun a c => isSpace a = false ∨ isSpace c = false) (squeezeAux b l) := by
  induction l generalizing b with
  | nil => simp [squeezeAux]
  | cons d ds ih =>
    by_cases hd : isSpace d = true
    · rw [squeezeAux, if_pos hd]
      cases b with
      | true =>
        rw [if_pos rfl]
        exact ih true
      | false =>
        rw [if_neg (by simp)]
        refine List.chain'_cons'.mpr ⟨?_, ih true⟩
        intro y hy
        exact Or.inr (squeezeAux_true_head ds y (Option.mem_def.mp hy))
    · rw [squeezeAux, if_neg hd]
      refine List.chain'_cons'.mpr ⟨?_, ih false⟩
      intro y _
      exact Or.inl (by simpa using hd)

theorem head_dropWhile_false (p : Char → Bool) (l : List Char) (c : Char)
    (h : (l.dropWhile p).head? = some c) : p c = false := by
  induction l with
  | nil => simp [List.dropWhile] at h
  | cons d ds ih =>
    by_cases hd : p d = true
    · rw [List.dropWhile_cons, if_pos hd] at h
      exact ih h
    · rw [List.dropWhile_cons, if_neg hd, List.head?_cons] at h
      injection h with h'
      subst h'
      simpa using hd

theorem dropWhile_id (p : Char → Bool) (l : List Char)
    (h : ∀ c, l.head? = some c → p c = false) : l.dropWhile p = l := by
  cases l with
  | nil => rfl
  | cons d ds =>
    have hd := h d rfl
    rw [List.dropWhile_cons, if_neg (by simp [hd])]

theorem mem_pyStrip {c : Char} {l : List Char} (h : c ∈ pyStrip l) : c ∈ l := by
  rw [pyStrip, List.mem_reverse] at h
  have h2 := (List.dropWhile_suffix isSpace).sublist.mem h
  rw [List.mem_reverse] at h2
  exact (List.dropWhile_suffix isSpace).sublist.mem h2

theorem chain'_dropWhile {R : Char → Char → Prop} (p : Char → Bool) (l : List Char)
    (h : List.Chain' R l) : List.Chain' R (l.dropWhile p) := by
  induction l with
  | nil => simp
  | cons d ds ih =>
    by_cases hd : p d = true
    · rw [List.dropWhile_cons, if_pos hd]
      exact ih (List.chain'_cons'.mp h).2
    · rw [List.dropWhile_cons, if_neg hd]
      exact h

theorem chain'_pyStrip {R : Char → Char → Prop} (l : List Char)
    (h : List.Chain' R l) : List.Chain' R (pyStrip l) := by
  rw [pyStrip]
  have h1 : List.Chain' R (l.dropWhile isSpace) := chain'_dropWhile isSpace l h
  have h2 : List.Chain' (flip R) (l.dropWhile isSpace).reverse := List.chain'_reverse.mpr h1
  have h3 : List.Chain' (flip R) ((l.dropWhile isSpace).reverse.dropWhile isSpace) :=
    chain'_dropWhile isSpace _ h2
  exact List.chain'_reverse.mpr h3

theorem pyStrip_getLast (l : List Char) (c : Char)
    (h : (pyStrip l).getLast? = some c) : isSpace c = false := by
  rw [pyStrip, List.getLast?_reverse] at h
  exact head_dropWhile_false isSpace _ c h

theorem pyStrip_head (l : List Char) (c : Char)
    (h : (pyStrip l).head? = some c) : isSpace c = false := by
  obtain ⟨s, hs⟩ := List.dropWhile_suffix (l := (l.dropWhile isSpace).reverse) isSpace
  have hsplit : l.dropWhile isSpace = pyStrip l ++ s.reverse := by
    have := congrArg List.reverse hs
    rw [List.reverse_append, List.reverse_reverse] at this
    rw [pyStrip]
    exact this.symm
  cases hps : pyStrip l with
  | nil => rw [hps, List.head?_nil] at h; cases h
  | cons d ds =>
    rw [hps, List.head?_cons] at h
    injection h with h'
    apply head_dropWhile_false isSpace l c
    rw [hsplit, hps, List.cons_append, List.head?_cons, h']

theorem map_id_on {α : Type*} {f : α → α} (l : List α) (h : ∀ c ∈ l, f c = c) :
    l.map f = l := by
  induction l with
  | nil => rfl
  | cons d ds ih =>
    rw [List.map_cons, h d (List.mem_cons_self d ds),
      ih (fun c hc => h c (List.mem_cons_of_mem _ hc))]

theorem squeezeAux_fix (l : List Char)
    (hsp : ∀ c ∈ l, isSpace c = true → c = ' ')
    (hch : List.Chain' (fun a b => isSpace a = false ∨ isSpace b = false) l) :
    squeezeAux false l = l := by
  induction l with
  | nil => rfl
  | cons d ds ih =>
    by_cases hd : isSpace d = true
    · rw [squeezeAux, if_pos hd, if_neg (by simp)]
      rw [hsp d (List.mem_cons_self d ds) hd]
      congr 1
      cases ds with
      | nil => rfl
      | cons e es =>
        have he : isSpace e = false := by
          rcases (List.chain'_cons'.mp hch).1 e (Option.mem_def.mpr rfl) with h1 | h2
          · rw [hd] at h1
            cases h1
          · exact h2
        have h2 := ih (fun c hc hsc => hsp c (List.mem_cons_of_mem _ hc) hsc)
          (List.chain'_cons'.mp hch).2
        rw [squeezeAux, if_neg (by simp [he])] at h2 ⊢
        exact h2
    · rw [squeezeAux, if_neg hd]
      rw [ih (fun c hc hsc => hsp c (List.mem_cons_of_mem _ hc) hsc) (List.chain'_cons'.mp hch).2]

theorem pyStrip_fix (l : List Char)
    (hh : ∀ c, l.head? = some c → isSpace c = false)
    (hl : ∀ c, l.getLast? = some c → isSpace c = false) :
    pyStrip l = l := by
  rw [pyStrip, dropWhile_id isSpace l hh,
    dropWhile_id isSpace l.reverse (fun c hc => hl c (by rwa [List.head?_reverse] at hc)),
    List.reverse_reverse]

theorem preprocess_chars (t : List Char) :
    ∀ c ∈ preprocess_text t,
      pyLowerChar c = c ∧ isPunct c = false ∧ isUpperAZ c = false ∧
      (isSpace c = true → c = ' ') := by
  intro c hc
  have hc1 : c ∈ squeezeAux false (replacePunct (pyLower t)) := mem_pyStrip hc
  have hblank : isSpace c = true → c = ' ' := fun hs => squeeze_space_is_blank _ _ hc1 hs
  rcases mem_squeezeAux false _ hc1 with rfl | ⟨hc2, _⟩
  · exact ⟨by decide, by decide, by decide, fun _ => rfl⟩
  · rcases mem_replacePunct hc2 with rfl | ⟨hc3, hp⟩
    · exact ⟨by decide, by decide, by decide, fun _ => rfl⟩
    · obtain ⟨d, _, rfl⟩ := List.mem_map.mp hc3
      exact ⟨pyLowerChar_idem d, hp, pyLowerChar_not_upper d, hblank⟩

theorem preprocess_chain (t : List Char) :
    List.Chain' (fun a b => isSpace a = false ∨ isSpace b = false) (preprocess_text t) := by
  rw [preprocess_text]
  exact chain'_pyStrip _ (squeezeAux_chain false _)

theorem preprocess_head (t : List Char) (c : Char)
    (h : (preprocess_text t).head? = some c) : isSpace c = false :=
  pyStrip_head _ c (by rwa [preprocess_text] at h)

theorem preprocess_getLast (t : List Char) (c : Char)
    (h : (preprocess_text t).getLast? = some c) : isSpace c = false :=
  pyStrip_getLast _ c (by rwa [preprocess_text] at h)

theorem preprocess_idem (t : List Char) :
    preprocess_text (preprocess_text t) = preprocess_text t := by
  have hchars := preprocess_chars t
  have hch := preprocess_chain t
  set u := preprocess_text t with hu
  have h1 : pyLower u = u := map_id_on u (fun c hc => (hchars c hc).1)
  have h2 : replacePunct u = u :=
    map_id_on u (fun c hc => by simp [(hchars c hc).2.1])
  have h3 : squeezeAux false u = u :=
    squeezeAux_fix u (fun c hc => (hchars c hc).2.2.2) hch
  have h4 : pyStrip u = u :=
    pyStrip_fix u (fun c hc => preprocess_head t c (hu ▸ hc))
      (fun c hc => preprocess_getLast t c (hu ▸ hc))
  rw [preprocess_text, h1, h2, h3, h4]

/- ------------------------------------------------------------------ -/
/- Claim theorems: text normalizer (C6) and extractor bound (C7)       -/
/- ------------------------------------------------------------------ -/

/-- C6: for every input, `preprocess_text` output contains no punctuation
character, no two consecutive whitespace characters, no leading or trailing
whitespace, and the function is idempotent; on empty input it returns the
empty string. -/
theorem C6_normalize_props (t : List Char) :
    (∀ c ∈ preprocess_text t, isPunct c = false) ∧
    List.Chain' (fun a b => isSpace a = false ∨ isSpace b = false) (preprocess_text t) ∧
    (∀ c, (preprocess_text t).head? = some c → isSpace c = false) ∧
    (∀ c, (preprocess_text t).getLast? = some c → isSpace c = false) ∧
    preprocess_text (preprocess_text t) = preprocess_text t ∧
    preprocess_text [] = [] :=
  ⟨fun c hc => (preprocess_chars t c hc).2.1, preprocess_chain t,
    preprocess_head t, preprocess_getLast t, preprocess_idem t, rfl⟩

/-- Witness for C6_normalize_props on the input `"  He,,llo  World! "`. -/
theorem C6_normalize_props_witness :
    isPunct 'h' = false ∧ isSpace 'h' = false ∧
    preprocess_text (preprocess_text "  He,,llo  World! ".data) =
      preprocess_text "  He,,llo  World! ".data := by
  obtain ⟨h1, _, h3, _, h5, _⟩ := C6_normalize_props "  He,,llo  World! ".data
  exact ⟨h1 'h' (by decide), h3 'h' (by decide), h5⟩

/-- C7: for every linguistic capability, stop-word set, input text, minimum
word length and topN, `extract_keywords` returns at most topN entries and
contains no duplicate entries. -/
theorem C7_extract_bounded_nodup (tokenize : List Char → List SpacyToken)
    (noun_chunks : List Char → List (List SpacyToken))
    (spacy_stop_words : List (List Char))
    (text : List Char) (min_word_length top_n : Nat) :
    (extract_keywords tokenize noun_chunks spacy_stop_words text min_word_length
        top_n).length ≤ top_n ∧
    (extract_keywords tokenize noun_chunks spacy_stop_words text min_word_length
        top_n).Nodup := by
  simp only [extract_keywords]
  exact ⟨List.length_take_le _ _, (nodup_dedupFirst _).sublist (List.take_sublist _ _)⟩

/- ------------------------------------------------------------------ -/
/- Helper lemmas on splitBy and the acronym regex                      -/
/- ------------------------------------------------------------------ -/

theorem mem_splitByAux (p : Char → Bool) (s : List Char) :
    ∀ cur : List Char, (∀ c ∈ cur, p c = true) →
      ∀ w ∈ splitByAux p cur s, ∀ c ∈ w, p c = true ∧ (c ∈ cur ∨ c ∈ s) := by
  induction s with
  | nil =>
    intro cur hcur w hw c hc
    rw [splitByAux] at hw
    by_cases he : cur.isEmpty = true
    · rw [if_pos he] at hw
      exact absurd hw (List.not_mem_nil w)
    · rw [if_neg he] at hw
      have hw' := List.mem_singleton.mp hw
      subst hw'
      rw [List.mem_reverse] at hc
      exact ⟨hcur c hc, Or.inl hc⟩
  | cons d ds ih =>
    intro cur hcur w hw c hc
    rw [splitByAux] at hw
    by_cases hp : p d = true
    · rw [if_pos hp] at hw
      have hcur' : ∀ e ∈ d :: cur, p e = true := by
        intro e he
        rcases List.mem_cons.mp he with rfl | he'
        · exact hp
        · exact hcur e he'
      obtain ⟨h1, h2⟩ := ih (d :: cur) hcur' w hw c hc
      refine ⟨h1, ?_⟩
      rcases h2 with h | h
      · rcases List.mem_cons.mp h with rfl | h'
        · exact Or.inr (List.mem_cons_self _ _)
        · exact Or.inl h'
      · exact Or.inr (List.mem_cons_of_mem _ h)
    · rw [if_neg hp] at hw
      by_cases he : cur.isEmpty = true
      · rw [if_pos he] at hw
        obtain ⟨h1, h2⟩ := ih [] (by simp) w hw c hc
        refine ⟨h1, ?_⟩
        rcases h2 with h | h
        · exact absurd h (List.not_mem_nil c)
        · exact Or.inr (List.mem_cons_of_mem _ h)
      · rw [if_neg he] at hw
        rcases List.mem_cons.mp hw with rfl | hw'
        · rw [List.mem_reverse] at hc
          exact ⟨hcur c hc, Or.inl hc⟩
        · obtain ⟨h1, h2⟩ := ih [] (by simp) w hw' c hc
          refine ⟨h1, ?_⟩
          rcases h2 with h | h
          · exact absurd h (List.not_mem_nil c)
          · exact Or.inr (List.mem_cons_of_mem _ h)

theorem mem_splitBy {p : Char → Bool} {s w : List Char} (hw : w ∈ splitBy p s)
    {c : Char} (hc : c ∈ w) : p c = true ∧ c ∈ s := by
  obtain ⟨h1, h2⟩ := mem_splitByAux p s [] (by simp) w (by rwa [splitBy] at hw) c hc
  refine ⟨h1, ?_⟩
  rcases h2 with h | h
  · exact absurd h (List.not_mem_nil c)
  · exact h

theorem mem_pySplit_words {s w : List Char} (hw : w ∈ pySplit s) {c : Char}
    (hc : c ∈ w) : isSpace c = false ∧ c ∈ s := by
  obtain ⟨h1, h2⟩ := mem_splitBy (by rwa [pySplit] at hw) hc
  exact ⟨by simpa using h1, h2⟩

theorem regexAcronyms_preprocess_nil (t : List Char) :
    regexAcronyms (preprocess_text t) = [] := by
  rw [regexAcronyms]
  apply List.filter_eq_nil_iff.mpr
  intro r hr hcontra
  simp only [Bool.and_eq_true, decide_eq_true_eq, List.all_eq_true] at hcontra
  obtain ⟨⟨hl2, _⟩, hall⟩ := hcontra
  cases r with
  | nil => simp at hl2
  | cons c cs =>
    have hcr : c ∈ c :: cs := List.mem_cons_self _ _
    have hup : isUpperAZ c = true := hall c hcr
    have hmem : c ∈ preprocess_text t := (mem_splitBy hr hcr).2
    have hnup := (preprocess_chars t c hmem).2.2.1
    rw [hup] at hnup
    cases hnup

/- ------------------------------------------------------------------ -/
/- Claim theorems: technical term detection (C5, C10)                  -/
/- ------------------------------------------------------------------ -/

/-- C5: on preprocessed (lowercased) text the `[A-Z]{2,5}` acronym heuristic
matches nothing, so every term returned by `extract_technical_terms` inside
the extraction pipeline is a member of the fixed `tech_terms` reference set. -/
theorem C5_terms_in_reference (t : List Char) :
    regexAcronyms (preprocess_text t) = [] ∧
    ∀ term ∈ extract_technical_terms (preprocess_text t), term ∈ tech_terms := by
  refine ⟨regexAcronyms_preprocess_nil t, fun term h => ?_⟩
  simp only [extract_technical_terms, regexAcronyms_preprocess_nil t, List.map_nil,
    List.append_nil] at h
  have h2 := (mem_dedupFirst _).mp h
  obtain ⟨w, hw, rfl⟩ := List.mem_map.mp h2
  have hsel := (List.mem_filter.mp hw).2
  simpa using hsel

/-- Witness for C5_terms_in_reference on the input `"Deployed on AWS daily"`. -/
theorem C5_terms_in_reference_witness :
    regexAcronyms (preprocess_text "Deployed on AWS daily".data) = [] ∧
    "aws".data ∈ tech_terms := by
  obtain ⟨h1, h2⟩ := C5_terms_in_reference "Deployed on AWS daily".data
  exact ⟨h1, h2 "aws".data (by decide)⟩

/-- C10: every term produced by `extract_technical_terms` on preprocessed text
is a single word, free of whitespace and punctuation; consequently the
reference entries containing punctuation or spaces (c++, c#, ci/cd, asp.net,
machine learning) can never be returned through the pipeline. -/
theorem C10_single_word_terms (t : List Char) (term : List Char)
    (h : term ∈ extract_technical_terms (preprocess_text t)) :
    (∀ c ∈ term, isSpace c = false ∧ isPunct c = false) ∧
    term ≠ "c++".data ∧ term ≠ "c#".data ∧ term ≠ "ci/cd".data ∧
    term ≠ "asp.net".data ∧ term ≠ "machine learning".data := by
  simp only [extract_technical_terms, regexAcronyms_preprocess_nil t, List.map_nil,
    List.append_nil] at h
  have h2 := (mem_dedupFirst _).mp h
  obtain ⟨w, hw, rfl⟩ := List.mem_map.mp h2
  have hwmem := (List.mem_filter.mp hw).1
  have hchars : ∀ c ∈ pyLower w, isSpace c = false ∧ isPunct c = false := by
    intro c hc
    obtain ⟨d, hd, rfl⟩ := List.mem_map.mp hc
    obtain ⟨hds, hdt⟩ := mem_pySplit_words hwmem hd
    exact pyLowerChar_keeps d hds (preprocess_chars t d hdt).2.1
  refine ⟨hchars, ?_, ?_, ?_, ?_, ?_⟩
  · intro heq
    exact absurd (hchars '+' (by rw [heq]; decide)).2 (by decide)
  · intro heq
    exact absurd (hchars '#' (by rw [heq]; decide)).2 (by decide)
  · intro heq
    exact absurd (hchars '/' (by rw [heq]; decide)).2 (by decide)
  · intro heq
    exact absurd (hchars '.' (by rw [heq]; decide)).2 (by decide)
  · intro heq
    exact absurd (hchars ' ' (by rw [heq]; decide)).1 (by decide)

/-- Witness for C10_single_word_terms on the input `"I use Python daily"`. -/
theorem C10_single_word_terms_witness :
    (∀ c ∈ ("python".data : List Char), isSpace c = false ∧ isPunct c = false) ∧
    ("python".data : List Char) ≠ "machine learning".data := by
  obtain ⟨h1, _, _, _, _, h6⟩ :=
    C10_single_word_terms "I use Python daily".data "python".data (by decide)
  exact ⟨h1, h6⟩
